import Mathlib

/-!
Verification of the secure file deletion utility (src/main.py).

The development shallowly embeds the Python program: bytes are `List Nat`
(each value below 256 where it matters), the filesystem is an association
list of paths to contents plus a list of directories, machine-word
arithmetic in SHA-256 is `Nat` arithmetic reduced modulo 2^32, and the
interactive workflow is a pure function over an input queue and an
explicit log.  Failure of the external copy/move primitives is modelled by
Boolean oracles in an environment record, since `shutil` errors are
outside the program's control.
-/

namespace SecureDelete

/-- Bytes of a file, as natural numbers (values `< 256` where relevant). -/
abbrev Bytes := List Nat

/-! ## Chunking

`iter(lambda: f.read(CHUNK), b"")` in `calculate_file_hash` yields the
file's bytes in successive chunks of `CHUNK` bytes (the final chunk may be
shorter).  `chunksOf` is that decomposition. -/

/-- Fuel-indexed worker for `chunksOf`; the fuel is an upper bound on the
list length, so recursion is structural and the kernel can evaluate it. -/
def chunksOfF (n : Nat) : Nat → List α → List (List α)
  | _, [] => []
  | 0, _ :: _ => []
  | fuel + 1, x :: xs =>
    if n = 0 then [] else (x :: xs).take n :: chunksOfF n fuel (xs.drop (n - 1))

/-- Split a list into consecutive chunks of `n` elements; the last chunk
may be shorter.  For `n = 0` we return `[]` (the Python loop is only ever
run with a positive chunk size). -/
def chunksOf (n : Nat) (l : List α) : List (List α) :=
  chunksOfF n l.length l

theorem chunksOfF_fuel {n : Nat} :
    ∀ (f1 : Nat) (l : List α) (f2 : Nat), l.length ≤ f1 → l.length ≤ f2 →
      chunksOfF n f1 l = chunksOfF n f2 l := by
  intro f1
  induction f1 with
  | zero =>
    intro l f2 h1 _
    have : l = [] := List.eq_nil_of_length_eq_zero (Nat.le_zero.mp h1)
    subst this
    cases f2 <;> rfl
  | succ f ih =>
    intro l f2 h1 h2
    cases l with
    | nil => cases f2 <;> rfl
    | cons x xs =>
      cases f2 with
      | zero => simp at h2
      | succ g =>
        simp only [chunksOfF]
        by_cases hn : n = 0
        · simp [hn]
        · simp only [hn, if_false]
          have hlen : (xs.drop (n - 1)).length ≤ f := by
            simp only [List.length_drop]
            simp only [List.length_cons] at h1
            omega
          have hlen2 : (xs.drop (n - 1)).length ≤ g := by
            simp only [List.length_drop]
            simp only [List.length_cons] at h2
            omega
          rw [ih _ g hlen hlen2]

theorem chunksOf_nil (n : Nat) : chunksOf n ([] : List α) = [] := rfl

theorem chunksOf_eq_cons {n : Nat} {l : List α} (hn : n ≠ 0) (hl : l ≠ []) :
    chunksOf n l = l.take n :: chunksOf n (l.drop n) := by
  cases l with
  | nil => exact absurd rfl hl
  | cons x xs =>
    show chunksOfF n (xs.length + 1) (x :: xs) = _
    simp only [chunksOfF, hn, if_false]
    have hdrop : (x :: xs).drop n = xs.drop (n - 1) := by
      cases n with
      | zero => exact absurd rfl hn
      | succ m => simp
    rw [hdrop]
    have : chunksOfF n xs.length (xs.drop (n - 1)) =
        chunksOfF n (xs.drop (n - 1)).length (xs.drop (n - 1)) := by
      apply chunksOfF_fuel
      · simp only [List.length_drop]; omega
      · exact Nat.le_refl _
    rw [this]
    rfl

/-- Splitting a concatenation whose first part has length a multiple of
`n` splits each part separately. -/
theorem chunksOf_append {n : Nat} (hn : n ≠ 0) (a b : List α)
    (hd : n ∣ a.length) :
    chunksOf n (a ++ b) = chunksOf n a ++ chunksOf n b := by
  generalize hm : a.length = m
  induction m using Nat.strong_induction_on generalizing a with
  | _ m ih =>
    cases a with
    | nil => simp [chunksOf_nil]
    | cons x xs =>
      rw [hm] at hd
      have hlen : 0 < m := by
        rw [← hm]; simp
      have hnm : n ≤ m := by
        rcases hd with ⟨k, hk⟩
        rcases k with _ | k
        · omega
        · have : n ≤ n * (k + 1) := Nat.le_mul_of_pos_right n (Nat.succ_pos k)
          omega
      have hnl : n ≤ (x :: xs).length := by rw [hm]; exact hnm
      have hab : (x :: xs) ++ b ≠ [] := by simp
      rw [chunksOf_eq_cons hn hab, chunksOf_eq_cons hn (by simp : (x :: xs) ≠ [])]
      rw [List.take_append_of_le_length hnl, List.drop_append_of_le_length hnl]
      have hmd : ((x :: xs).drop n).length = m - n := by
        simp only [List.length_drop]
        rw [hm]
      have hd' : n ∣ ((x :: xs).drop n).length := by
        rw [hmd]
        exact Nat.dvd_sub' hd dvd_rfl
      have hlt : m - n < m := by
        have : 0 < n := Nat.pos_of_ne_zero hn
        omega
      rw [ih (m - n) hlt _ hd' hmd]
      simp

/-- Joining the chunks gives back the original list. -/
theorem join_chunksOf {n : Nat} (hn : n ≠ 0) (l : List α) :
    (chunksOf n l).flatten = l := by
  generalize hm : l.length = m
  induction m using Nat.strong_induction_on generalizing l with
  | _ m ih =>
    cases l with
    | nil => simp [chunksOf_nil]
    | cons x xs =>
      rw [chunksOf_eq_cons hn (by simp : (x :: xs) ≠ [])]
      have hlen : 0 < m := by rw [← hm]; simp
      have hmd : ((x :: xs).drop n).length = m - n := by
        simp only [List.length_drop]
        rw [hm]
      have hlt : m - n < m := by
        have : 0 < n := Nat.pos_of_ne_zero hn
        omega
      simp only [List.flatten_cons]
      rw [ih (m - n) hlt _ hmd]
      exact List.take_append_drop n (x :: xs)

end SecureDelete

namespace SHA256

/-- Reduce modulo the 32-bit word size, mirroring the implicit wrap-around
of the 32-bit words inside SHA-256. -/
def w32 (x : Nat) : Nat := x % 4294967296

/-- Rotate a 32-bit word right by `n` bits. -/
def rotr (n x : Nat) : Nat := (x >>> n) ||| (w32 (x <<< (32 - n)))

def ch (x y z : Nat) : Nat := (x &&& y) ^^^ ((x ^^^ 4294967295) &&& z)

def maj (x y z : Nat) : Nat := (x &&& y) ^^^ (x &&& z) ^^^ (y &&& z)

def bigSigma0 (x : Nat) : Nat := rotr 2 x ^^^ rotr 13 x ^^^ rotr 22 x

def bigSigma1 (x : Nat) : Nat := rotr 6 x ^^^ rotr 11 x ^^^ rotr 25 x

def smallSigma0 (x : Nat) : Nat := rotr 7 x ^^^ rotr 18 x ^^^ (x >>> 3)

def smallSigma1 (x : Nat) : Nat := rotr 17 x ^^^ rotr 19 x ^^^ (x >>> 10)

/-- The 64 SHA-256 round constants (decimal). -/
def K : List Nat :=
  [1116352408, 1899447441, 3049323471, 3921009573, 961987163,
   1508970993, 2453635748, 2870763221, 3624381080, 310598401,
   607225278, 1426881987, 1925078388, 2162078206, 2614888103,
   3248222580, 3835390401, 4022224774, 264347078, 604807628,
   770255983, 1249150122, 1555081692, 1996064986, 2554220882,
   2821834349, 2952996808, 3210313671, 3336571891, 3584528711,
   113926993, 338241895, 666307205, 773529912, 1294757372,
   1396182291, 1695183700, 1986661051, 2177026350, 2456956037,
   2730485921, 2820302411, 3259730800, 3345764771, 3516065817,
   3600352804, 4094571909, 275423344, 430227734, 506948616,
   659060556, 883997877, 958139571, 1322822218, 1537002063,
   1747873779, 1955562222, 2024104815, 2227730452, 2361852424,
   2428436474, 2756734187, 3204031479, 3329325298]

/-- Working state: the eight 32-bit hash words. -/
abbrev St := Nat × Nat × Nat × Nat × Nat × Nat × Nat × Nat

/-- Initial SHA-256 hash value (decimal). -/
def H0 : St :=
  (1779033703, 3144134277, 1013904242, 2773480762,
   1359893119, 2600822924, 528734635, 1541459225)

/-- Big-endian 4-byte groups to 32-bit words. -/
def toWords : List Nat → List Nat
  | a :: b :: c :: d :: rest => (((a * 256 + b) * 256 + c) * 256 + d) :: toWords rest
  | _ => []

/-- Extend the 16 message words of a block to the 64-entry schedule. -/
def schedule (ws : List Nat) : List Nat :=
  (List.range 48).foldl
    (fun acc _ =>
      let n := acc.length
      acc ++ [w32 (smallSigma1 (acc.getD (n - 2) 0) + acc.getD (n - 7) 0 +
                   smallSigma0 (acc.getD (n - 15) 0) + acc.getD (n - 16) 0)])
    ws

/-- One SHA-256 compression round. -/
def roundStep (st : St) (kw : Nat × Nat) : St :=
  let (a, b, c, d, e, f, g, h) := st
  let t1 := w32 (h + bigSigma1 e + ch e f g + kw.1 + kw.2)
  let t2 := w32 (bigSigma0 a + maj a b c)
  (w32 (t1 + t2), a, b, c, w32 (d + t1), e, f, g)

/-- Compress a single 64-byte block into the hash state. -/
def compress (st : St) (block : List Nat) : St :=
  let ws := schedule (toWords block)
  let (a0, b0, c0, d0, e0, f0, g0, h0) := st
  let fin := (K.zip ws).foldl roundStep st
  let (a, b, c, d, e, f, g, h) := fin
  (w32 (a0 + a), w32 (b0 + b), w32 (c0 + c), w32 (d0 + d),
   w32 (e0 + e), w32 (f0 + f), w32 (g0 + g), w32 (h0 + h))

/-- The eight big-endian length bytes of the bit-length suffix. -/
def lenBytes8 (n : Nat) : List Nat :=
  (List.range 8).map (fun i => (n >>> (8 * (7 - i))) % 256)

/-- Length of the zero padding: the padded message, before the 8 length
bytes, must be 56 modulo 64. -/
def padZeros (len : Nat) : Nat := (64 - (len + 9) % 64) % 64

/-- SHA-256 message padding. -/
def pad (msg : List Nat) : List Nat :=
  msg ++ 128 :: (List.replicate (padZeros msg.length) 0 ++ lenBytes8 (8 * msg.length))

/-- Serialize the final state as 32 big-endian bytes. -/
def stBytes (st : St) : List Nat :=
  let (a, b, c, d, e, f, g, h) := st
  [a, b, c, d, e, f, g, h].foldr
    (fun w acc => (w >>> 24) % 256 :: (w >>> 16) % 256 :: (w >>> 8) % 256 :: w % 256 :: acc) []

/-- Reference one-pass SHA-256 over a byte sequence. -/
def sha256 (msg : List Nat) : List Nat :=
  stBytes ((SecureDelete.chunksOf 64 (pad msg)).foldl compress H0)

/-- The lower-case hexadecimal digit character for a value below 16
(code point 48 + d for digits, 87 + d for letters). -/
def hexDigit (d : Nat) : Char :=
  Char.ofNat (if d < 10 then 48 + d else 87 + min d 15)

/-- Lower-case hex rendering of a byte string (as `hexdigest()` prints). -/
def toHex (bs : List Nat) : String :=
  ⟨bs.foldr (fun b acc => hexDigit (b / 16) :: hexDigit (b % 16) :: acc) []⟩

/-- Reference one-pass hex digest. -/
def sha256hex (msg : List Nat) : String := toHex (sha256 msg)

/-! ## The incremental accumulator

`hashlib.sha256()` maintains the compressed state of all complete 64-byte
blocks fed so far, a buffer of the trailing partial block, and the total
length; `update` feeds more bytes and `hexdigest` pads and finishes. -/

/-- Incremental hashing context (state, pending partial block, total
bytes fed). -/
structure Ctx where
  h : St
  buf : List Nat
  len : Nat

/-- Fresh context, as `hashlib.sha256()` returns. -/
def Ctx.init : Ctx := ⟨H0, [], 0⟩

/-- Feed a chunk of bytes, compressing every complete 64-byte block. -/
def Ctx.update (c : Ctx) (chunk : List Nat) : Ctx :=
  let b := c.buf ++ chunk
  let nb := b.length / 64
  ⟨(SecureDelete.chunksOf 64 (b.take (64 * nb))).foldl compress c.h,
   b.drop (64 * nb), c.len + chunk.length⟩

/-- Pad the pending bytes and produce the digest. -/
def Ctx.final (c : Ctx) : List Nat :=
  let tail := c.buf ++ 128 :: (List.replicate (padZeros c.len) 0 ++ lenBytes8 (8 * c.len))
  stBytes ((SecureDelete.chunksOf 64 tail).foldl compress c.h)

def Ctx.finalHex (c : Ctx) : String := toHex c.final

/-! ### Refinement: the incremental context abstracts to the bytes fed -/

/-- The contents of the incremental context after feeding exactly the
byte sequence `bs`: all complete 64-byte blocks compressed, the trailing
partial block buffered, the total length recorded. -/
def ctxOf (bs : List Nat) : Ctx :=
  ⟨(SecureDelete.chunksOf 64 (bs.take (64 * (bs.length / 64)))).foldl compress H0,
   bs.drop (64 * (bs.length / 64)), bs.length⟩

theorem ctxOf_nil : ctxOf [] = Ctx.init := rfl

theorem update_ctxOf (bs c : List Nat) : (ctxOf bs).update c = ctxOf (bs ++ c) := by
  have h64 : (64 : Nat) ≠ 0 := by omega
  set L := bs.length with hL
  set q := L / 64 with hq
  have hqle : 64 * q ≤ L := by
    have := Nat.div_mul_le_self L 64
    omega
  set F := bs.take (64 * q) with hF
  set R := bs.drop (64 * q) with hR
  have hFlen : F.length = 64 * q := by
    rw [hF, List.length_take]
    omega
  have hRlen : R.length = L - 64 * q := by
    rw [hR, List.length_drop]
  have hsplit : bs = F ++ R := (List.take_append_drop _ bs).symm
  have hdvd : (64 : Nat) ∣ F.length := ⟨q, hFlen⟩
  set b := R ++ c with hb
  set nb := b.length / 64 with hnb
  have hblen : b.length = L - 64 * q + c.length := by
    rw [hb, List.length_append, hRlen]
  have hq' : (L + c.length) / 64 = q + nb := by
    have hLq : L = 64 * q + (L - 64 * q) := by omega
    calc (L + c.length) / 64 = (64 * q + (L - 64 * q + c.length)) / 64 := by
          congr 1; omega
      _ = q + (L - 64 * q + c.length) / 64 := Nat.mul_add_div (by omega) _ _
      _ = q + nb := by rw [hnb, hblen]
  have hnble : 64 * nb ≤ b.length := by
    have := Nat.div_mul_le_self b.length 64
    omega
  have htake : (bs ++ c).take (64 * ((bs ++ c).length / 64)) = F ++ b.take (64 * nb) := by
    rw [List.length_append, ← hL, hq', hsplit, List.append_assoc, ← hb]
    rw [List.take_append_eq_append_take]
    rw [List.take_of_length_le (by rw [hFlen]; exact Nat.mul_le_mul_left 64 (Nat.le_add_right _ _))]
    congr 1
    rw [hFlen]
    congr 1
    omega
  have hdrop : (bs ++ c).drop (64 * ((bs ++ c).length / 64)) = b.drop (64 * nb) := by
    rw [List.length_append, ← hL, hq', hsplit, List.append_assoc, ← hb]
    rw [List.drop_append_eq_append_drop]
    rw [List.drop_of_length_le (by rw [hFlen]; exact Nat.mul_le_mul_left 64 (Nat.le_add_right _ _))]
    rw [List.nil_append, hFlen]
    congr 1
    omega
  show Ctx.mk _ _ _ = Ctx.mk _ _ _
  congr 1
  · show (SecureDelete.chunksOf 64 (List.take
        (64 * (((ctxOf bs).buf ++ c).length / 64)) ((ctxOf bs).buf ++ c))).foldl
          compress (ctxOf bs).h =
      (SecureDelete.chunksOf 64 ((bs ++ c).take (64 * ((bs ++ c).length / 64)))).foldl compress H0
    have hbufR : (ctxOf bs).buf = R := rfl
    rw [hbufR, ← hb, htake]
    rw [SecureDelete.chunksOf_append h64 _ _ hdvd, List.foldl_append]
    rfl
  · show List.drop (64 * (((ctxOf bs).buf ++ c).length / 64)) ((ctxOf bs).buf ++ c) = _
    have hbufR : (ctxOf bs).buf = R := rfl
    rw [hbufR, ← hb, hdrop]
  · show bs.length + c.length = (bs ++ c).length
    rw [List.length_append]

theorem final_ctxOf (bs : List Nat) : (ctxOf bs).final = sha256 bs := by
  have h64 : (64 : Nat) ≠ 0 := by omega
  set L := bs.length with hL
  set q := L / 64 with hq
  have hqle : 64 * q ≤ L := by
    have := Nat.div_mul_le_self L 64
    omega
  set F := bs.take (64 * q) with hF
  set R := bs.drop (64 * q) with hR
  have hFlen : F.length = 64 * q := by
    rw [hF, List.length_take]
    omega
  have hsplit : bs = F ++ R := (List.take_append_drop _ bs).symm
  have hdvd : (64 : Nat) ∣ F.length := ⟨q, hFlen⟩
  show stBytes _ = stBytes _
  congr 1
  show (SecureDelete.chunksOf 64 (R ++ 128 ::
      (List.replicate (padZeros L) 0 ++ lenBytes8 (8 * L)))).foldl compress
      ((SecureDelete.chunksOf 64 F).foldl compress H0) = _
  rw [← List.foldl_append, ← SecureDelete.chunksOf_append h64 _ _ hdvd]
  have : pad bs = F ++ (R ++ 128 :: (List.replicate (padZeros L) 0 ++ lenBytes8 (8 * L))) := by
    rw [pad, ← hL, hsplit]
    simp [List.append_assoc, hsplit]
  rw [← this]

theorem foldl_update_ctxOf (cs : List (List Nat)) :
    cs.foldl Ctx.update Ctx.init = ctxOf cs.flatten := by
  rw [← ctxOf_nil]
  have main : ∀ (cs : List (List Nat)) (bs : List Nat),
      cs.foldl Ctx.update (ctxOf bs) = ctxOf (bs ++ cs.flatten) := by
    intro cs
    induction cs with
    | nil => intro bs; simp
    | cons c cs ih =>
      intro bs
      simp only [List.foldl_cons, List.flatten_cons]
      rw [update_ctxOf, ih, List.append_assoc]
  have := main cs []
  simpa using this

end SHA256

namespace SecureDelete

/-- Chunk size used by `calculate_file_hash` (128 KB, i.e. `f.read(131072)`). -/
def CHUNK_SIZE : Nat := 131072

/-- The digest printed by `calculate_file_hash` for a file whose bytes are
`data`: the bytes are read in `CHUNK_SIZE` chunks and streamed through the
incremental SHA-256 accumulator. -/
def calculate_file_hash (data : Bytes) : String :=
  ((chunksOf CHUNK_SIZE data).foldl SHA256.Ctx.update SHA256.Ctx.init).finalHex

/-! ## Strings and paths -/

theorem strInj {a b : String} (h : a.data = b.data) : a = b := by
  cases a
  cases b
  exact congrArg String.mk h

theorem strData_append (a b : String) : (a ++ b).data = a.data ++ b.data := rfl

theorem strAppend_left_cancel {a x y : String} (h : a ++ x = a ++ y) : x = y := by
  apply strInj
  have := congrArg String.data h
  rw [strData_append, strData_append] at this
  exact List.append_cancel_left this

theorem strAppend_right_cancel {x y b : String} (h : x ++ b = y ++ b) : x = y := by
  apply strInj
  have := congrArg String.data h
  rw [strData_append, strData_append] at this
  exact List.append_cancel_right this

/-- Split a character list at its last `/`: the first component keeps the
trailing slash, the second is everything after it. -/
def lastSlashSplit (l : List Char) : List Char × List Char :=
  let rev := l.reverse
  ((rev.dropWhile (fun c => c ≠ '/')).reverse, (rev.takeWhile (fun c => c ≠ '/')).reverse)

/-- `os.path.basename`: everything after the last slash. -/
def basename (s : String) : String := ⟨(lastSlashSplit s.data).2⟩

/-- `os.path.dirname`: everything before the last slash, with trailing
slashes stripped unless the head consists only of slashes. -/
def dirname (s : String) : String :=
  let h := (lastSlashSplit s.data).1
  if h.isEmpty then ""
  else if h.all (fun c => c = '/') then ⟨h⟩
  else ⟨(h.reverse.dropWhile (fun c => c = '/')).reverse⟩

/-- `os.path.splitext` on a slash-free name: split at the last dot,
unless every character before that dot is itself a dot. -/
def splitextChars (l : List Char) : List Char × List Char :=
  let afterRev := l.reverse.takeWhile (fun c => c ≠ '.')
  if afterRev.length = l.length then (l, [])
  else
    let dotIndex := l.length - afterRev.length - 1
    if (l.take dotIndex).any (fun c => c ≠ '.') then (l.take dotIndex, l.drop dotIndex)
    else (l, [])

def splitext (s : String) : String × String :=
  let p := splitextChars s.data
  (⟨p.1⟩, ⟨p.2⟩)

/-- `t` is a suffix of `s` (kernel-evaluable `String.endsWith`). -/
def strEndsWith (s t : String) : Bool := t.data.reverse.isPrefixOf s.data.reverse

/-- `t` is a prefix of `s` (kernel-evaluable `String.startsWith`). -/
def strStartsWith (s t : String) : Bool := t.data.isPrefixOf s.data

/-- Drop the first `n` characters (kernel-evaluable `String.drop`). -/
def strDrop (s : String) (n : Nat) : String := ⟨s.data.drop n⟩

/-- `os.path.join` for a non-empty directory and a relative name. -/
def joinPath (d n : String) : String :=
  if strEndsWith d "/" then d ++ n else d ++ "/" ++ n

theorem joinPath_right_inj {d x y : String} (h : joinPath d x = joinPath d y) : x = y := by
  rw [joinPath, joinPath] at h
  by_cases hd : strEndsWith d "/"
  · rw [if_pos hd, if_pos hd] at h
    exact strAppend_left_cancel h
  · rw [if_neg hd, if_neg hd] at h
    exact strAppend_left_cancel h

/-- `os.path.expanduser` with the user's home directory `home`; a path
naming another user (`~other`) is returned unchanged, as CPython does when
the user is unknown. -/
def expanduser (home : String) (p : String) : String :=
  if p = "~" then home
  else if strStartsWith p "~/" then home ++ strDrop p 1
  else p

/-! ## Decimal rendering of the collision counter

An f-string interpolates the counter in decimal; `decRepr` is that
rendering, defined with explicit fuel so the kernel can evaluate it. -/

/-- The decimal digit character for a value below 10 (code point 48 + d). -/
def decDigit (d : Nat) : Char :=
  Char.ofNat (48 + min d 9)

def decCharsF : Nat → Nat → List Char
  | 0, n => [decDigit (n % 10)]
  | fuel + 1, n =>
    if n < 10 then [decDigit n] else decCharsF fuel (n / 10) ++ [decDigit (n % 10)]

def decChars (n : Nat) : List Char := decCharsF n n

def decRepr (n : Nat) : String := ⟨decChars n⟩

theorem decCharsF_fuel :
    ∀ (f : Nat) (n g : Nat), n ≤ f → n ≤ g → decCharsF f n = decCharsF g n := by
  intro f
  induction f with
  | zero =>
    intro n g h1 _
    have hn : n = 0 := Nat.le_zero.mp h1
    subst hn
    cases g with
    | zero => rfl
    | succ h => simp [decCharsF]
  | succ f ih =>
    intro n g h1 h2
    by_cases hn : n < 10
    · cases g with
      | zero =>
        have : n = 0 := Nat.le_zero.mp h2
        subst this
        simp [decCharsF]
      | succ h => simp [decCharsF, hn]
    · have h10 : 10 ≤ n := Nat.le_of_not_lt hn
      cases g with
      | zero => omega
      | succ h =>
        simp only [decCharsF, hn, if_false]
        have hdiv : n / 10 < n := Nat.div_lt_self (by omega) (by omega)
        rw [ih (n / 10) f (by omega) (by omega)]
        rw [ih (n / 10) h (by omega) (by omega)]

theorem decChars_eq (n : Nat) :
    decChars n = if n < 10 then [decDigit n]
      else decChars (n / 10) ++ [decDigit (n % 10)] := by
  by_cases hn : n < 10
  · rw [if_pos hn]
    cases hh : n with
    | zero => rfl
    | succ m =>
      show decCharsF (m + 1) (m + 1) = _
      simp [decCharsF, hh ▸ hn]
  · rw [if_neg hn]
    have h10 : 10 ≤ n := Nat.le_of_not_lt hn
    cases hh : n with
    | zero => omega
    | succ m =>
      show decCharsF (m + 1) (m + 1) = _
      simp only [decCharsF, hh ▸ hn, if_false]
      rw [decChars]
      rw [decCharsF_fuel m ((m + 1) / 10) ((m + 1) / 10) (by omega) (Nat.le_refl _)]

theorem decChars_ne_nil (n : Nat) : decChars n ≠ [] := by
  rw [decChars_eq]
  by_cases hn : n < 10
  · simp [hn]
  · simp [hn]

theorem decDigit_inj_lt : ∀ a < 10, ∀ b < 10, decDigit a = decDigit b → a = b := by
  decide

theorem decChars_inj : ∀ n m : Nat, decChars n = decChars m → n = m := by
  intro n
  induction n using Nat.strong_induction_on with
  | _ n ih =>
    intro m h
    rw [decChars_eq n, decChars_eq m] at h
    by_cases hn : n < 10 <;> by_cases hm : m < 10
    · rw [if_pos hn, if_pos hm] at h
      injection h with h1 _
      exact decDigit_inj_lt n hn m hm h1
    · rw [if_pos hn, if_neg hm] at h
      have : ([decDigit n] : List Char).length = (decChars (m / 10) ++ [decDigit (m % 10)]).length :=
        congrArg List.length h
      simp only [List.length_append, List.length_cons, List.length_nil] at this
      have := decChars_ne_nil (m / 10)
      have hpos : 0 < (decChars (m / 10)).length := List.length_pos.mpr this
      omega
    · rw [if_neg hn, if_pos hm] at h
      have : (decChars (n / 10) ++ [decDigit (n % 10)]).length = ([decDigit m] : List Char).length :=
        congrArg List.length h
      simp only [List.length_append, List.length_cons, List.length_nil] at this
      have := decChars_ne_nil (n / 10)
      have hpos : 0 < (decChars (n / 10)).length := List.length_pos.mpr this
      omega
    · rw [if_neg hn, if_neg hm] at h
      have hrev := congrArg List.reverse h
      simp only [List.reverse_append, List.reverse_cons, List.reverse_nil,
        List.nil_append, List.cons_append] at hrev
      have hd : decDigit (n % 10) = decDigit (m % 10) := by
        injection hrev with h1 _
      have ht : decChars (n / 10) = decChars (m / 10) := by
        injection hrev with _ h2
        have := congrArg List.reverse h2
        simpa using this
      have hmod : n % 10 = m % 10 :=
        decDigit_inj_lt (n % 10) (Nat.mod_lt n (by omega)) (m % 10) (Nat.mod_lt m (by omega)) hd
      have hdivlt : n / 10 < n := Nat.div_lt_self (by omega) (by omega)
      have hdiv : n / 10 = m / 10 := ih (n / 10) hdivlt (m / 10) ht
      have h1 := Nat.div_add_mod n 10
      have h2 := Nat.div_add_mod m 10
      omega

theorem decRepr_inj {a b : Nat} (h : decRepr a = decRepr b) : a = b := by
  apply decChars_inj
  have := congrArg String.data h
  exact this

/-! ## Filesystem model

The filesystem is an association list of regular files (path, bytes) and a
list of directory paths.  `lookupFile` models looking up a regular file,
`pathExists` models `os.path.exists` (file or directory). -/

def lookupFile : List (String × Bytes) → String → Option Bytes
  | [], _ => none
  | (q, c) :: rest, p => if q = p then some c else lookupFile rest p

def removeFile : List (String × Bytes) → String → List (String × Bytes)
  | [], _ => []
  | (q, c) :: rest, p => if q = p then removeFile rest p else (q, c) :: removeFile rest p

def memStr : List String → String → Bool
  | [], _ => false
  | q :: rest, p => if q = p then true else memStr rest p

structure FS where
  files : List (String × Bytes)
  dirs : List String

/-- `file_exists` from the source: the path names a regular file. -/
def file_exists (fs : FS) (p : String) : Bool := (lookupFile fs.files p).isSome

/-- `os.path.exists`: the path names a regular file or a directory. -/
def pathExists (fs : FS) (p : String) : Bool := file_exists fs p || memStr fs.dirs p

/-- `os.makedirs(d, exist_ok=True)`: record the directory if absent. -/
def insertDir (d : String) (dirs : List String) : List String :=
  if memStr dirs d then dirs else dirs ++ [d]

theorem lookupFile_mem {files : List (String × Bytes)} {p : String} {c : Bytes}
    (h : lookupFile files p = some c) : p ∈ files.map Prod.fst := by
  induction files with
  | nil => simp [lookupFile] at h
  | cons e rest ih =>
    obtain ⟨q, d⟩ := e
    rw [lookupFile] at h
    by_cases hq : q = p
    · simp [hq]
    · rw [if_neg hq] at h
      simp [ih h]

theorem memStr_mem {dirs : List String} {p : String}
    (h : memStr dirs p = true) : p ∈ dirs := by
  induction dirs with
  | nil => simp [memStr] at h
  | cons q rest ih =>
    rw [memStr] at h
    by_cases hq : q = p
    · simp [hq]
    · rw [if_neg hq] at h
      simp [ih h]

theorem pathExists_mem {fs : FS} {p : String}
    (h : pathExists fs p = true) : p ∈ fs.files.map Prod.fst ++ fs.dirs := by
  rw [pathExists, Bool.or_eq_true] at h
  rcases h with h | h
  · rw [file_exists] at h
    rcases Option.isSome_iff_exists.mp h with ⟨c, hc⟩
    exact List.mem_append.mpr (Or.inl (lookupFile_mem hc))
  · exact List.mem_append.mpr (Or.inr (memStr_mem h))

/-! ## Collision-free name generation

Both `move_to_trash` and `backup_file` first try a plain
`<stem>_<timestamp><ext>` name and then, while the candidate exists,
append an incrementing counter.  `freshFrom` is that loop, with fuel. -/

def freshFrom (occ : String → Bool) (mk : Nat → String) : Nat → Nat → Option String
  | 0, _ => none
  | fuel + 1, k => if occ (mk k) then freshFrom occ mk fuel (k + 1) else some (mk k)

def freshName (occ : String → Bool) (plain : String) (mk : Nat → String)
    (fuel : Nat) : Option String :=
  if occ plain then freshFrom occ mk fuel 1 else some plain

theorem freshFrom_not_occ {occ : String → Bool} {mk : Nat → String} :
    ∀ (fuel k : Nat) (d : String), freshFrom occ mk fuel k = some d → occ d = false := by
  intro fuel
  induction fuel with
  | zero => intro k d h; simp [freshFrom] at h
  | succ f ih =>
    intro k d h
    rw [freshFrom] at h
    by_cases ho : occ (mk k) = true
    · rw [if_pos ho] at h
      exact ih (k + 1) d h
    · rw [if_neg ho] at h
      injection h with h
      subst h
      exact Bool.not_eq_true _ ▸ Bool.of_not_eq_true ho

theorem freshName_not_occ {occ : String → Bool} {plain : String} {mk : Nat → String}
    {fuel : Nat} {d : String} (h : freshName occ plain mk fuel = some d) : occ d = false := by
  rw [freshName] at h
  by_cases ho : occ plain = true
  · rw [if_pos ho] at h
    exact freshFrom_not_occ fuel 1 d h
  · rw [if_neg ho] at h
    injection h with h
    subst h
    exact Bool.not_eq_true _ ▸ Bool.of_not_eq_true ho

theorem freshFrom_isSome {occ : String → Bool} {mk : Nat → String} :
    ∀ (fuel k : Nat), (∃ j, k ≤ j ∧ j < k + fuel ∧ occ (mk j) = false) →
      (freshFrom occ mk fuel k).isSome = true := by
  intro fuel
  induction fuel with
  | zero =>
    intro k h
    rcases h with ⟨j, h1, h2, _⟩
    omega
  | succ f ih =>
    intro k h
    rw [freshFrom]
    by_cases ho : occ (mk k) = true
    · rw [if_pos ho]
      apply ih
      rcases h with ⟨j, h1, h2, h3⟩
      refine ⟨j, ?_, by omega, h3⟩
      rcases Nat.eq_or_lt_of_le h1 with he | hl
      · subst he
        rw [h3] at ho
        simp at ho
      · omega
    · rw [if_neg ho]
      rfl

/-- Pigeonhole: among `N + 1` candidate names produced by an injective
renderer, at least one is unoccupied in a filesystem with `N` entries. -/
theorem fresh_candidate_exists (fs : FS) (mk : Nat → String)
    (hinj : Function.Injective mk) :
    ∃ j, 1 ≤ j ∧ j < 1 + (fs.files.length + fs.dirs.length + 1) ∧
      pathExists fs (mk j) = false := by
  by_contra hcon
  push_neg at hcon
  set N := fs.files.length + fs.dirs.length with hN
  have hall : ∀ j, 1 ≤ j → j < N + 2 → pathExists fs (mk j) = true := by
    intro j h1 h2
    have := hcon j h1 (by omega)
    exact Bool.not_eq_false _ ▸ this
  set S := (fs.files.map Prod.fst ++ fs.dirs).toFinset with hS
  have hcardS : S.card ≤ N := by
    calc S.card ≤ (fs.files.map Prod.fst ++ fs.dirs).length := List.toFinset_card_le _
      _ = N := by simp [hN]
  set T := Finset.image mk (Finset.Icc 1 (N + 1)) with hT
  have hsub : T ⊆ S := by
    intro x hx
    rw [hT, Finset.mem_image] at hx
    rcases hx with ⟨j, hj, rfl⟩
    rw [Finset.mem_Icc] at hj
    have := hall j hj.1 (by omega)
    rw [hS, List.mem_toFinset]
    exact pathExists_mem this
  have hcardT : T.card = N + 1 := by
    rw [hT, Finset.card_image_of_injective _ hinj, Nat.card_Icc]
    omega
  have := Finset.card_le_card hsub
  omega

theorem freshName_isSome (fs : FS) (plain : String) (mk : Nat → String)
    (hinj : Function.Injective mk) :
    (freshName (pathExists fs) plain mk (fs.files.length + fs.dirs.length + 1)).isSome = true := by
  rw [freshName]
  by_cases ho : pathExists fs plain = true
  · rw [if_pos ho]
    apply freshFrom_isSome
    exact fresh_candidate_exists fs mk hinj
  · rw [if_neg ho]
    rfl

/-! ## The two file operations -/

/-- Environment: the user's home directory, the timestamp rendered by
`datetime.now().strftime(...)`, and oracles deciding whether the external
`shutil.move` / `shutil.copy2` calls succeed. -/
structure Env where
  home : String
  now : String
  moveOk : Bool
  copyOk : Bool

/-- The trash root `~/.trash`, after `os.path.expanduser`. -/
def trashDir (home : String) : String := expanduser home "~/.trash"

/-- The plain (counter-free) destination name used by `move_to_trash`. -/
def trashPlain (env : Env) (path : String) : String :=
  let ne := splitext (basename path)
  joinPath (trashDir env.home) (ne.1 ++ "_" ++ env.now ++ ne.2)

/-- The counter-suffixed destination names used by `move_to_trash`. -/
def trashCand (env : Env) (path : String) (k : Nat) : String :=
  let ne := splitext (basename path)
  joinPath (trashDir env.home) (ne.1 ++ "_" ++ env.now ++ "_" ++ decRepr k ++ ne.2)

/-- `move_to_trash`: create `~/.trash`, bail out if the source is not a
regular file, generate a collision-free destination name, and move the
file there (`shutil.move` may fail, controlled by `env.moveOk`).
`os.path.abspath` is the identity here because model paths are already
canonical. -/
def move_to_trash (env : Env) (fs : FS) (path : String) : Option String × FS :=
  let fs1 : FS := ⟨fs.files, insertDir (trashDir env.home) fs.dirs⟩
  match lookupFile fs1.files path with
  | none => (none, fs1)
  | some content =>
    match freshName (pathExists fs1) (trashPlain env path) (trashCand env path)
        (fs1.files.length + fs1.dirs.length + 1) with
    | none => (none, fs1)
    | some dest =>
      if env.moveOk then
        (some dest, ⟨(dest, content) :: removeFile fs1.files path, fs1.dirs⟩)
      else (none, fs1)

/-- The plain (counter-free) backup name used by `backup_file`. -/
def backupPlain (env : Env) (path : String) : String :=
  let dir0 := dirname path
  let dir := if dir0 = "" then "." else dir0
  let ne := splitext (basename path)
  joinPath dir (ne.1 ++ "_" ++ env.now ++ ne.2 ++ ".bak")

/-- The counter-suffixed backup names used by `backup_file`. -/
def backupCand (env : Env) (path : String) (k : Nat) : String :=
  let dir0 := dirname path
  let dir := if dir0 = "" then "." else dir0
  let ne := splitext (basename path)
  joinPath dir (ne.1 ++ "_" ++ env.now ++ "_" ++ decRepr k ++ ne.2 ++ ".bak")

/-- `backup_file`: return `None` if the source is missing, generate a
collision-free backup name and copy the source there (`shutil.copy2` may
fail, controlled by `env.copyOk`).  On a copy failure the source returns
the first candidate name if something exists there, else `None` — exactly
the `return original if os.path.exists(original) else None` line. -/
def backup_file (env : Env) (fs : FS) (path : String) : Option String × FS :=
  match lookupFile fs.files path with
  | none => (none, fs)
  | some content =>
    let original := backupPlain env path
    match freshName (pathExists fs) original (backupCand env path)
        (fs.files.length + fs.dirs.length + 1) with
    | none => (none, fs)
    | some bp =>
      if env.copyOk then (some bp, ⟨(bp, content) :: fs.files, fs.dirs⟩)
      else (if pathExists fs original then some original else none, fs)

theorem trashCand_inj (env : Env) (path : String) :
    Function.Injective (trashCand env path) := by
  intro a b h
  simp only [trashCand] at h
  have h1 := joinPath_right_inj h
  have h2 := strAppend_right_cancel h1
  have h3 := strAppend_left_cancel h2
  exact decRepr_inj h3

theorem backupCand_inj (env : Env) (path : String) :
    Function.Injective (backupCand env path) := by
  intro a b h
  simp only [backupCand] at h
  have h1 := joinPath_right_inj h
  have h2 := strAppend_right_cancel h1
  have h3 := strAppend_right_cancel h2
  have h4 := strAppend_left_cancel h3
  exact decRepr_inj h4

/-! ## Lookup lemmas -/

theorem lookupFile_cons (q : String) (c : Bytes) (l : List (String × Bytes)) (p : String) :
    lookupFile ((q, c) :: l) p = if q = p then some c else lookupFile l p := rfl

theorem lookupFile_removeFile_self (l : List (String × Bytes)) (p : String) :
    lookupFile (removeFile l p) p = none := by
  induction l with
  | nil => rfl
  | cons e rest ih =>
    obtain ⟨q, c⟩ := e
    rw [removeFile]
    by_cases hq : q = p
    · rw [if_pos hq]
      exact ih
    · rw [if_neg hq, lookupFile_cons, if_neg hq]
      exact ih

theorem lookupFile_removeFile_ne (l : List (String × Bytes)) (p q : String) (h : q ≠ p) :
    lookupFile (removeFile l p) q = lookupFile l q := by
  induction l with
  | nil => rfl
  | cons e rest ih =>
    obtain ⟨r, c⟩ := e
    rw [removeFile]
    by_cases hr : r = p
    · rw [if_pos hr, lookupFile_cons, ih, if_neg (by rw [hr]; exact fun hc => h hc.symm)]
    · rw [if_neg hr, lookupFile_cons, lookupFile_cons, ih]

theorem pathExists_false_lookup {fs : FS} {p : String} (h : pathExists fs p = false) :
    lookupFile fs.files p = none := by
  rw [pathExists, Bool.or_eq_false_iff] at h
  rw [file_exists] at h
  exact Option.not_isSome_iff_eq_none.mp (by rw [h.1]; exact Bool.false_ne_true)

/-! ## Content analysis: entropy

`calculate_entropy` reads the whole file, returns a distinguished 0.0 for
an empty file, and otherwise computes the Shannon entropy over the
positive-count histogram bins.  Floating-point arithmetic is idealized as
real arithmetic; `np.log2 x = Real.log x / Real.log 2`. -/

/-- Bytes of a file for the entropy analysis (`np.uint8` values). -/
abbrev Byte := Fin 256

/-- Shannon entropy, in bits per byte, of the file's byte histogram. -/
noncomputable def calculate_entropy (data : List Byte) : ℝ :=
  if data = [] then 0
  else (∑ b ∈ data.toFinset,
    Real.negMulLog ((data.count b : ℝ) / (data.length : ℝ))) / Real.log 2

/-! ## User interaction and the workflow -/

/-- Python `str.strip()` whitespace (space, tab, newline, return,
vertical tab, form feed). -/
def isPyWS (c : Char) : Bool :=
  c == ' ' || c == '\t' || c == '\n' || c == '\r' || c == '\x0b' || c == '\x0c'

def squote : Char := Char.ofNat 39

def dquote : Char := Char.ofNat 34

/-- The characters stripped by `.strip("\x22'")`. -/
def isQuoteCh (c : Char) : Bool := c == squote || c == dquote

/-- Remove matching characters from both ends, as Python `str.strip` does. -/
def dropEdges (p : Char → Bool) (l : List Char) : List Char :=
  ((l.dropWhile p).reverse.dropWhile p).reverse

def stripBy (p : Char → Bool) (s : String) : String := ⟨dropEdges p s.data⟩

/-- ASCII lowering, as `.lower()` does on the ASCII answers involved. -/
def pyLower (s : String) : String := ⟨s.data.map Char.toLower⟩

/-- `input(prompt).strip().lower()` -/
def normResp (s : String) : String := pyLower (stripBy isPyWS s)

/-- `confirm_action`: consume console answers until one is affirmative
(`yes`/`y`/`ye`) or negative (`no`/`n`); every other answer re-prompts.
Returns the decision, the number of re-prompts, and the remaining input
queue; `none` models `input()` raising on input exhaustion. -/
def confirm_action : List String → Option (Bool × Nat × List String)
  | [] => none
  | r :: rest =>
    let resp := normResp r
    if resp = "yes" ∨ resp = "y" ∨ resp = "ye" then some (true, 0, rest)
    else if resp = "no" ∨ resp = "n" then some (false, 0, rest)
    else match confirm_action rest with
      | none => none
      | some (b, k, rem) => some (b, k + 1, rem)

/-- One line appended by `log_action`: the target path, the action label,
and whether the `status` column reads `SUCCESS` or `FAILURE`. -/
structure LogEntry where
  path : String
  action : String
  success : Bool

/-- Observable workflow steps, in program order. -/
inductive Ev where
  | metadata
  | preview
  | hashEv
  | entropyEv
  | sizeEv
  | effortEv
  | backupEv
  | trashEv
deriving DecidableEq

/-- Workflow state: the filesystem, the appended-to action log, and the
pending console input queue. -/
structure WfState where
  fs : FS
  log : List LogEntry
  inputs : List String

/-- `p.strip().strip("\x22'")` followed by `os.path.expanduser`: the
normalization applied to the user-supplied path before any use. -/
def pyNormalize (home : String) (s : String) : String :=
  expanduser home (stripBy isQuoteCh (stripBy isPyWS s))

/-- The body of `interactive_delete` after path normalization. -/
def interactiveCore (env : Env) (path : String) (st : WfState) :
    Option (WfState × List Ev) :=
  if file_exists st.fs path then
    let evs1 := [Ev.metadata, Ev.preview, Ev.hashEv, Ev.entropyEv, Ev.sizeEv,
      Ev.effortEv, Ev.backupEv]
    let bres := backup_file env st.fs path
    let log1 := st.log ++
      (match bres.1 with
       | some _ => [⟨path, "BACKUP_CREATED", true⟩]
       | none => [])
    match confirm_action st.inputs with
    | none => none
    | some (yes, _, rest) =>
      if yes then
        let mres := move_to_trash env bres.2 path
        some (⟨mres.2, log1 ++ [⟨path, "MOVED_TO_TRASH", mres.1.isSome⟩], rest⟩,
          evs1 ++ [Ev.trashEv])
      else
        some (⟨bres.2, log1 ++ [⟨path, "CANCELLED", true⟩], rest⟩, evs1)
  else
    some (⟨st.fs, st.log ++ [⟨path, "NOT_FOUND", false⟩], st.inputs⟩, [])

/-- `interactive_delete`: normalize the user-supplied path, then run the
inspect / backup / confirm / trash workflow on it. -/
def interactive_delete (env : Env) (input_path : String) (st : WfState) :
    Option (WfState × List Ev) :=
  interactiveCore env (pyNormalize env.home input_path) st

/-! ## Characterization lemmas for the file operations -/

theorem memStr_append_single (dirs : List String) (d : String) :
    memStr (dirs ++ [d]) d = true := by
  induction dirs with
  | nil => simp [memStr]
  | cons q rest ih =>
    rw [List.cons_append, memStr]
    by_cases hq : q = d
    · rw [if_pos hq]
    · rw [if_neg hq]
      exact ih

theorem memStr_insertDir (d : String) (dirs : List String) :
    memStr (insertDir d dirs) d = true := by
  rw [insertDir]
  by_cases h : memStr dirs d = true
  · rw [if_pos h]
    exact h
  · rw [if_neg h]
    exact memStr_append_single dirs d

theorem insertDir_mem (d : String) (dirs : List String) (h : memStr dirs d = true) :
    insertDir d dirs = dirs := by
  rw [insertDir, if_pos h]

theorem freshFrom_shape {occ : String → Bool} {mk : Nat → String} :
    ∀ (fuel k : Nat) (d : String), freshFrom occ mk fuel k = some d → ∃ j, d = mk j := by
  intro fuel
  induction fuel with
  | zero => intro k d h; simp [freshFrom] at h
  | succ f ih =>
    intro k d h
    rw [freshFrom] at h
    by_cases ho : occ (mk k) = true
    · rw [if_pos ho] at h
      exact ih (k + 1) d h
    · rw [if_neg ho] at h
      injection h with h
      exact ⟨k, h.symm⟩

theorem freshName_shape {occ : String → Bool} {plain : String} {mk : Nat → String}
    {fuel : Nat} {d : String} (h : freshName occ plain mk fuel = some d) :
    d = plain ∨ ∃ j, d = mk j := by
  rw [freshName] at h
  by_cases ho : occ plain = true
  · rw [if_pos ho] at h
    exact Or.inr (freshFrom_shape fuel 1 d h)
  · rw [if_neg ho] at h
    injection h with h
    exact Or.inl h.symm

theorem trashDir_eq (home : String) : trashDir home = home ++ "/.trash" := rfl

theorem isPrefixOf_self_append [BEq α] [LawfulBEq α] :
    ∀ (l m : List α), l.isPrefixOf (l ++ m) = true := by
  intro l
  induction l with
  | nil => intro m; simp
  | cons a as ih =>
    intro m
    show (a == a && as.isPrefixOf (as ++ m)) = true
    rw [beq_self_eq_true, ih]
    rfl

theorem strEndsWith_trashDir (home : String) : strEndsWith (trashDir home) "/" = false := by
  rw [trashDir_eq, strEndsWith, strData_append, List.reverse_append]
  rfl

theorem joinPath_trash (home x : String) :
    joinPath (trashDir home) x = trashDir home ++ "/" ++ x := by
  rw [joinPath]
  simp [strEndsWith_trashDir]

theorem strStartsWith_append_left (a b : String) : strStartsWith (a ++ b) a = true := by
  rw [strStartsWith, strData_append]
  exact isPrefixOf_self_append a.data b.data

/-- Any name `move_to_trash` can generate lies under the trash root. -/
theorem trash_name_under_root (env : Env) (path dest : String)
    (h : dest = trashPlain env path ∨ ∃ j, dest = trashCand env path j) :
    strStartsWith dest (trashDir env.home ++ "/") = true := by
  rcases h with h | ⟨j, h⟩
  · rw [h, trashPlain, joinPath_trash]
    have := strStartsWith_append_left (trashDir env.home ++ "/")
      ((splitext (basename path)).1 ++ "_" ++ env.now ++ (splitext (basename path)).2)
    simpa [String.append_assoc] using this
  · rw [h, trashCand, joinPath_trash]
    have := strStartsWith_append_left (trashDir env.home ++ "/")
      ((splitext (basename path)).1 ++ "_" ++ env.now ++ "_" ++ decRepr j ++
        (splitext (basename path)).2)
    simpa [String.append_assoc] using this

/-- Successful `move_to_trash` run, fully characterized. -/
theorem move_to_trash_success_char {env : Env} {fs : FS} {path dest : String} {fs' : FS}
    (h : move_to_trash env fs path = (some dest, fs')) :
    ∃ c, lookupFile fs.files path = some c ∧
      pathExists ⟨fs.files, insertDir (trashDir env.home) fs.dirs⟩ dest = false ∧
      (dest = trashPlain env path ∨ ∃ j, dest = trashCand env path j) ∧
      fs' = ⟨(dest, c) :: removeFile fs.files path, insertDir (trashDir env.home) fs.dirs⟩ ∧
      env.moveOk = true := by
  rw [move_to_trash] at h
  split at h
  · simp at h
  · rename_i c hl
    split at h
    · simp at h
    · rename_i d hf
      split at h
      · rename_i hm
        injection h with h1 h2
        injection h1 with h1
        subst h1
        exact ⟨c, hl, freshName_not_occ hf, freshName_shape hf, h2.symm, hm⟩
      · simp at h

/-- Failed `move_to_trash` run: the files are untouched and the only
directory change is the (idempotent) creation of the trash root. -/
theorem move_to_trash_failure_char {env : Env} {fs : FS} {path : String} {fs' : FS}
    (h : move_to_trash env fs path = (none, fs')) :
    fs' = ⟨fs.files, insertDir (trashDir env.home) fs.dirs⟩ := by
  rw [move_to_trash] at h
  split at h
  · injection h with _ h2
    exact h2.symm
  · rename_i c hl
    split at h
    · injection h with _ h2
      exact h2.symm
    · rename_i d hf
      split at h
      · simp at h
      · injection h with _ h2
        exact h2.symm

/-- Successful `backup_file` run with a succeeding copy, characterized. -/
theorem backup_file_success_char {env : Env} {fs : FS} {path dest : String} {fs' : FS}
    (h : backup_file env fs path = (some dest, fs')) (hc : env.copyOk = true) :
    ∃ c, lookupFile fs.files path = some c ∧
      pathExists fs dest = false ∧
      fs' = ⟨(dest, c) :: fs.files, fs.dirs⟩ := by
  rw [backup_file] at h
  split at h
  · simp at h
  · rename_i c hl
    simp only [hc, eq_self_iff_true, if_true] at h
    split at h
    · simp at h
    · rename_i d hf
      injection h with h1 h2
      injection h1 with h1
      subst h1
      exact ⟨c, hl, freshName_not_occ hf, h2.symm⟩

/-- `backup_file` when the copy step fails: the filesystem is untouched,
and the returned value is either `none` or the pre-occupied first
candidate name. -/
theorem backup_file_copy_fail {env : Env} {fs : FS} {path : String} {r : Option String}
    {fs' : FS} (hc : env.copyOk = false) (h : backup_file env fs path = (r, fs')) :
    fs' = fs ∧
      (r = none ∨
        (r = some (backupPlain env path) ∧ pathExists fs (backupPlain env path) = true)) := by
  rw [backup_file] at h
  split at h
  · injection h with h1 h2
    exact ⟨h2.symm, Or.inl h1.symm⟩
  · rename_i c hl
    simp only [hc, Bool.false_eq_true, if_false] at h
    split at h
    · injection h with h1 h2
      exact ⟨h2.symm, Or.inl h1.symm⟩
    · rename_i d hf
      by_cases ho : pathExists fs (backupPlain env path) = true
      · rw [if_pos ho] at h
        injection h with h1 h2
        exact ⟨h2.symm, Or.inr ⟨h1.symm, ho⟩⟩
      · rw [if_neg ho] at h
        injection h with h1 h2
        exact ⟨h2.symm, Or.inl h1.symm⟩

/-! ## Workflow characterization -/

/-- The log entries contributed by the backup step of the workflow: one
`BACKUP_CREATED`/SUCCESS line when `backup_file` returned a path, nothing
otherwise. -/
def backupLog (env : Env) (st : WfState) (path : String) : List LogEntry :=
  match (backup_file env st.fs path).1 with
  | some _ => [⟨path, "BACKUP_CREATED", true⟩]
  | none => []

/-- The seven inspection/backup steps the workflow performs before the
confirmation prompt. -/
def stepEvents : List Ev :=
  [Ev.metadata, Ev.preview, Ev.hashEv, Ev.entropyEv, Ev.sizeEv, Ev.effortEv, Ev.backupEv]

theorem interactiveCore_notfound_char {env : Env} {path : String} {st : WfState}
    (hne : file_exists st.fs path = false) :
    interactiveCore env path st =
      some (⟨st.fs, st.log ++ [⟨path, "NOT_FOUND", false⟩], st.inputs⟩, []) := by
  rw [interactiveCore, if_neg (by rw [hne]; exact Bool.false_ne_true)]

theorem interactiveCore_true_char {env : Env} {path : String} {st : WfState} {k : Nat}
    {rest : List String} (hex : file_exists st.fs path = true)
    (hconf : confirm_action st.inputs = some (true, k, rest)) :
    interactiveCore env path st =
      some (⟨(move_to_trash env (backup_file env st.fs path).2 path).2,
        (st.log ++ backupLog env st path) ++
          [⟨path, "MOVED_TO_TRASH",
            (move_to_trash env (backup_file env st.fs path).2 path).1.isSome⟩],
        rest⟩, stepEvents ++ [Ev.trashEv]) := by
  rw [interactiveCore, if_pos hex, hconf]
  rfl

theorem interactiveCore_false_char {env : Env} {path : String} {st : WfState} {k : Nat}
    {rest : List String} (hex : file_exists st.fs path = true)
    (hconf : confirm_action st.inputs = some (false, k, rest)) :
    interactiveCore env path st =
      some (⟨(backup_file env st.fs path).2,
        (st.log ++ backupLog env st path) ++ [⟨path, "CANCELLED", true⟩],
        rest⟩, stepEvents) := by
  rw [interactiveCore, if_pos hex, hconf]
  rfl

theorem interactiveCore_confirm_none {env : Env} {path : String} {st : WfState}
    (hex : file_exists st.fs path = true)
    (hconf : confirm_action st.inputs = none) :
    interactiveCore env path st = none := by
  rw [interactiveCore, if_pos hex, hconf]

/-! ## Confirmation answers -/

def isYesResp (s : String) : Bool :=
  normResp s == "yes" || normResp s == "y" || normResp s == "ye"

def isNoResp (s : String) : Bool :=
  normResp s == "no" || normResp s == "n"

def isValidResp (s : String) : Bool := isYesResp s || isNoResp s

/-- Full characterization of the confirmation loop: a successful answer
splits the input queue into `k` invalid answers, one valid answer that
determines the decision, and the untouched remainder. -/
theorem confirm_action_char :
    ∀ (inputs : List String) (b : Bool) (k : Nat) (rem : List String),
      confirm_action inputs = some (b, k, rem) →
        ∃ pre v, inputs = pre ++ v :: rem ∧ pre.length = k ∧
          (∀ x ∈ pre, isValidResp x = false) ∧
          (b = true → isYesResp v = true) ∧ (b = false → isNoResp v = true) := by
  intro inputs
  induction inputs with
  | nil =>
    intro b k rem h
    simp [confirm_action] at h
  | cons r rest ih =>
    intro b k rem h
    rw [confirm_action] at h
    by_cases hy : normResp r = "yes" ∨ normResp r = "y" ∨ normResp r = "ye"
    · rw [if_pos hy] at h
      injection h with h
      injection h with hb h
      injection h with hk hrem
      subst hb; subst hk; subst hrem
      refine ⟨[], r, rfl, rfl, by intro x hx; simp at hx, ?_, by intro hf; exact absurd hf (by simp)⟩
      intro _
      rcases hy with hy | hy | hy <;> simp [isYesResp, hy]
    · rw [if_neg hy] at h
      by_cases hn : normResp r = "no" ∨ normResp r = "n"
      · rw [if_pos hn] at h
        injection h with h
        injection h with hb h
        injection h with hk hrem
        subst hb; subst hk; subst hrem
        refine ⟨[], r, rfl, rfl, by intro x hx; simp at hx,
          by intro hf; exact absurd hf (by simp), ?_⟩
        intro _
        rcases hn with hn | hn <;> simp [isNoResp, hn]
      · rw [if_neg hn] at h
        have hvr : isValidResp r = false := by
          push_neg at hy hn
          simp only [isValidResp, isYesResp, isNoResp, Bool.or_eq_false_iff,
            beq_eq_false_iff_ne, ne_eq]
          exact ⟨⟨⟨hy.1, hy.2.1⟩, hy.2.2⟩, hn.1, hn.2⟩
        cases hc : confirm_action rest with
        | none =>
          rw [hc] at h
          exact absurd h (by simp)
        | some t =>
          obtain ⟨b', k', rem'⟩ := t
          rw [hc] at h
          injection h with h
          injection h with hb h
          injection h with hk hrem
          subst hb; subst hrem
          obtain ⟨pre, v, hsplit, hlen, hinv, hyv, hnv⟩ := ih b' k' rem' hc
          refine ⟨r :: pre, v, by rw [hsplit]; rfl, by simp [hlen, ← hk], ?_, hyv, hnv⟩
          intro x hx
          rcases List.mem_cons.mp hx with hx | hx
          · rw [hx]; exact hvr
          · exact hinv x hx

/-! ## Stripping characterization (for C10) -/

theorem head_dropWhile_false (p : α → Bool) :
    ∀ (l : List α) (c : α), (l.dropWhile p).head? = some c → p c = false := by
  intro l
  induction l with
  | nil => intro c h; simp [List.dropWhile] at h
  | cons x xs ih =>
    intro c h
    rw [List.dropWhile_cons] at h
    by_cases hp : p x = true
    · rw [if_pos hp] at h
      exact ih c h
    · rw [if_neg hp] at h
      injection h with h
      subst h
      exact Bool.not_eq_true _ ▸ Bool.of_not_eq_true hp

theorem dropWhile_idem (p : α → Bool) (l : List α) :
    (l.dropWhile p).dropWhile p = l.dropWhile p := by
  cases hW : l.dropWhile p with
  | nil => rfl
  | cons c t =>
    have hc : p c = false := head_dropWhile_false p l c (by rw [hW]; rfl)
    rw [List.dropWhile_cons, if_neg (by rw [hc]; exact Bool.false_ne_true)]

/-- `dropWhile` of a prefix of a `dropWhile` result is the identity: the
head, if any, already fails `p`. -/
theorem dropWhile_of_isPrefixOf_dropWhile (p : α → Bool) (l mid : List α)
    (h : mid <+: l.dropWhile p) : mid.dropWhile p = mid := by
  cases hm : mid with
  | nil => rfl
  | cons c t =>
    subst hm
    obtain ⟨tl, htl⟩ := h
    have hc : p c = false := by
      apply head_dropWhile_false p l c
      rw [← htl]
      rfl
    rw [List.dropWhile_cons, if_neg (by rw [hc]; exact Bool.false_ne_true)]

/-- What `str.strip(chars)` does: the result is the original string with
a fully-matching prefix and suffix removed, and itself starts and ends
with no matching character. -/
theorem stripBy_spec (p : Char → Bool) (s : String) :
    (∃ pre suf, s.data = pre ++ (stripBy p s).data ++ suf ∧
      (∀ c ∈ pre, p c = true) ∧ (∀ c ∈ suf, p c = true)) ∧
    (stripBy p s).data.dropWhile p = (stripBy p s).data ∧
    (stripBy p s).data.reverse.dropWhile p = (stripBy p s).data.reverse := by
  have hdata : (stripBy p s).data = ((s.data.dropWhile p).reverse.dropWhile p).reverse := rfl
  have hW : s.data.dropWhile p =
      (stripBy p s).data ++ ((s.data.dropWhile p).reverse.takeWhile p).reverse := by
    rw [hdata]
    conv_lhs => rw [← List.reverse_reverse (s.data.dropWhile p)]
    rw [← List.reverse_append]
    congr 1
    exact (List.takeWhile_append_dropWhile p (s.data.dropWhile p).reverse).symm
  refine ⟨?_, ?_, ?_⟩
  · refine ⟨s.data.takeWhile p, ((s.data.dropWhile p).reverse.takeWhile p).reverse, ?_, ?_, ?_⟩
    · conv_lhs => rw [← List.takeWhile_append_dropWhile p s.data]
      conv_lhs => rw [hW]
      rw [List.append_assoc]
    · intro c hc
      exact List.mem_takeWhile_imp hc
    · intro c hc
      rw [List.mem_reverse] at hc
      exact List.mem_takeWhile_imp hc
  · rw [hdata]
    apply dropWhile_of_isPrefixOf_dropWhile p s.data
    have h1 : List.dropWhile p ((s.data.dropWhile p).reverse) <:+ (s.data.dropWhile p).reverse :=
      List.dropWhile_suffix p
    have h2 := ( List.reverse_prefix).mpr h1
    rwa [List.reverse_reverse] at h2
  · rw [hdata, List.reverse_reverse]
    exact dropWhile_idem p _

theorem strStartsWith_two_ne_short {p : String} (h : strStartsWith p "~/" = true) :
    p ≠ "~" := by
  intro he
  subst he
  rw [strStartsWith] at h
  revert h
  decide

/-! ## Example fixtures used by the claim witnesses -/

def exEnv : Env := ⟨"/home/u", "T", true, true⟩

def exFS : FS := ⟨[("/a/f.txt", [1, 2, 3])], []⟩

def exTrashFS : FS := ⟨[("/home/u/.trash/f_T.txt", [1, 2, 3])], ["/home/u/.trash"]⟩

/-- Copy/move failure environment. -/
def exEnvCopyFail : Env := ⟨"/home/u", "T", true, false⟩

/-- A filesystem where the first backup candidate name is pre-occupied by
an unrelated file. -/
def exFSColl : FS := ⟨[("/a/f.txt", [1, 2, 3]), ("/a/f_T.txt.bak", [9])], []⟩

end SecureDelete

open SecureDelete

/-- Claim C1: for every path on which `move_to_trash` succeeds (returns a
destination path), the source file no longer exists at its original path
and exactly one new file exists under the trash root, byte-identical to
the pre-move source (the destination is new, holds the source's bytes,
and every other path is unchanged); for every path on which the move step
fails, the source file remains untouched (no file changes at all). -/
theorem C1_move_to_trash_semantics :
    (∀ (env : Env) (fs : FS) (path dest : String) (fs' : FS),
      move_to_trash env fs path = (some dest, fs') →
        lookupFile fs'.files path = none ∧
        (∃ c, lookupFile fs.files path = some c ∧ lookupFile fs'.files dest = some c) ∧
        lookupFile fs.files dest = none ∧
        strStartsWith dest (trashDir env.home ++ "/") = true ∧
        (∀ q, q ≠ dest → q ≠ path → lookupFile fs'.files q = lookupFile fs.files q)) ∧
    (∀ (env : Env) (fs : FS) (path : String) (fs' : FS),
      move_to_trash env fs path = (none, fs') → fs'.files = fs.files) := by
  constructor
  · intro env fs path dest fs' h
    obtain ⟨c, hl, hfresh, hshape, hfs', _⟩ := move_to_trash_success_char h
    have hdestnone : lookupFile fs.files dest = none :=
      @pathExists_false_lookup ⟨fs.files, insertDir (trashDir env.home) fs.dirs⟩ dest hfresh
    have hnd : path ≠ dest := by
      intro he
      rw [← he] at hdestnone
      rw [hl] at hdestnone
      exact Option.noConfusion hdestnone
    subst hfs'
    refine ⟨?_, ⟨c, hl, ?_⟩, hdestnone, trash_name_under_root env path dest hshape, ?_⟩
    · show lookupFile ((dest, c) :: removeFile fs.files path) path = none
      rw [lookupFile_cons, if_neg (fun hh => hnd hh.symm), lookupFile_removeFile_self]
    · show lookupFile ((dest, c) :: removeFile fs.files path) dest = some c
      rw [lookupFile_cons, if_pos rfl]
    · intro q hqd hqp
      show lookupFile ((dest, c) :: removeFile fs.files path) q = lookupFile fs.files q
      rw [lookupFile_cons, if_neg (fun hh => hqd hh.symm),
        lookupFile_removeFile_ne _ _ _ hqp]
  · intro env fs path fs' h
    rw [move_to_trash_failure_char h]

/-- Witness for C1 at a concrete move: the source vanishes and the
destination under `~/.trash` carries its bytes. -/
theorem C1_witness :
    move_to_trash exEnv exFS "/a/f.txt" = (some "/home/u/.trash/f_T.txt", exTrashFS) ∧
    lookupFile exTrashFS.files "/a/f.txt" = none ∧
    lookupFile exTrashFS.files "/home/u/.trash/f_T.txt" = some [1, 2, 3] ∧
    strStartsWith "/home/u/.trash/f_T.txt" (trashDir exEnv.home ++ "/") = true := by
  have h := C1_move_to_trash_semantics.1 exEnv exFS "/a/f.txt" "/home/u/.trash/f_T.txt"
    exTrashFS (by rfl)
  refine ⟨by rfl, h.1, ?_, h.2.2.2.1⟩
  obtain ⟨c, hc1, hc2⟩ := h.2.1
  have : c = [1, 2, 3] := by
    have : some c = some [1, 2, 3] := by rw [← hc1]; rfl
    injection this
  rw [← this]
  exact hc2

/-- Claim C2: destination names generated by `move_to_trash` and
`backup_file` never pre-exist at generation time (no pre-existing file is
overwritten), the counter loop always finds an unused name, and two
successive successful backups of the same source yield distinct paths. -/
theorem C2_collision_free_naming :
    (∀ (env : Env) (fs : FS) (path dest : String) (fs' : FS),
      move_to_trash env fs path = (some dest, fs') →
        pathExists ⟨fs.files, insertDir (trashDir env.home) fs.dirs⟩ dest = false ∧
        lookupFile fs.files dest = none ∧
        (∀ q c, lookupFile fs.files q = some c → q ≠ path →
          lookupFile fs'.files q = some c)) ∧
    (∀ (env : Env) (fs : FS) (path dest : String) (fs' : FS),
      backup_file env fs path = (some dest, fs') → env.copyOk = true →
        pathExists fs dest = false ∧
        (∀ q c, lookupFile fs.files q = some c → lookupFile fs'.files q = some c)) ∧
    (∀ (env1 env2 : Env) (fs : FS) (path b1 : String) (fs1 : FS) (b2 : String) (fs2 : FS),
      env1.copyOk = true → env2.copyOk = true →
      backup_file env1 fs path = (some b1, fs1) →
      backup_file env2 fs1 path = (some b2, fs2) → b2 ≠ b1) ∧
    (∀ (env : Env) (fs : FS) (path : String), ∃ d,
      freshName (pathExists ⟨fs.files, insertDir (trashDir env.home) fs.dirs⟩)
        (trashPlain env path) (trashCand env path)
        (fs.files.length + (insertDir (trashDir env.home) fs.dirs).length + 1) = some d ∧
      pathExists ⟨fs.files, insertDir (trashDir env.home) fs.dirs⟩ d = false) ∧
    (∀ (env : Env) (fs : FS) (path : String), ∃ d,
      freshName (pathExists fs) (backupPlain env path) (backupCand env path)
        (fs.files.length + fs.dirs.length + 1) = some d ∧
      pathExists fs d = false) := by
  refine ⟨?_, ?_, ?_, ?_, ?_⟩
  · intro env fs path dest fs' h
    obtain ⟨c, hl, hfresh, _, hfs', _⟩ := move_to_trash_success_char h
    have hdestnone : lookupFile fs.files dest = none :=
      @pathExists_false_lookup ⟨fs.files, insertDir (trashDir env.home) fs.dirs⟩ dest hfresh
    subst hfs'
    refine ⟨hfresh, hdestnone, ?_⟩
    intro q c' hq hqp
    have hqd : q ≠ dest := by
      intro he
      rw [he, hdestnone] at hq
      exact Option.noConfusion hq
    show lookupFile ((dest, c) :: removeFile fs.files path) q = some c'
    rw [lookupFile_cons, if_neg (fun hh => hqd hh.symm),
      lookupFile_removeFile_ne _ _ _ hqp, hq]
  · intro env fs path dest fs' h hc
    obtain ⟨c, hl, hfresh, hfs'⟩ := backup_file_success_char h hc
    have hdestnone : lookupFile fs.files dest = none := pathExists_false_lookup hfresh
    subst hfs'
    refine ⟨hfresh, ?_⟩
    intro q c' hq
    have hqd : q ≠ dest := by
      intro he
      rw [he, hdestnone] at hq
      exact Option.noConfusion hq
    show lookupFile ((dest, c) :: fs.files) q = some c'
    rw [lookupFile_cons, if_neg (fun hh => hqd hh.symm), hq]
  · intro env1 env2 fs path b1 fs1 b2 fs2 hc1 hc2 h1 h2 heq
    obtain ⟨c1, hl1, _, hfs1⟩ := backup_file_success_char h1 hc1
    obtain ⟨c2, hl2, hf2, _⟩ := backup_file_success_char h2 hc2
    have hnone : lookupFile fs1.files b2 = none := pathExists_false_lookup hf2
    subst hfs1
    rw [heq] at hnone
    have : lookupFile ((b1, c1) :: fs.files) b1 = some c1 := by
      rw [lookupFile_cons, if_pos rfl]
    rw [this] at hnone
    exact Option.noConfusion hnone
  · intro env fs path
    have hs := freshName_isSome ⟨fs.files, insertDir (trashDir env.home) fs.dirs⟩
      (trashPlain env path) (trashCand env path) (trashCand_inj env path)
    obtain ⟨d, hd⟩ := Option.isSome_iff_exists.mp hs
    exact ⟨d, hd, freshName_not_occ hd⟩
  · intro env fs path
    have hs := freshName_isSome fs (backupPlain env path) (backupCand env path)
      (backupCand_inj env path)
    obtain ⟨d, hd⟩ := Option.isSome_iff_exists.mp hs
    exact ⟨d, hd, freshName_not_occ hd⟩

/-- Witness for C2, including a genuine collision: with
`/home/u/.trash/f_T.txt` pre-occupied, the generated name picks up the
counter suffix `_1` and the pre-existing file keeps its contents. -/
theorem C2_witness :
    move_to_trash exEnv ⟨[("/a/f.txt", [1, 2, 3])], ["/home/u/.trash/f_T.txt"]⟩ "/a/f.txt" =
      (some "/home/u/.trash/f_T_1.txt",
        ⟨[("/home/u/.trash/f_T_1.txt", [1, 2, 3])],
          ["/home/u/.trash/f_T.txt", "/home/u/.trash"]⟩) ∧
    pathExists ⟨exFS.files, insertDir (trashDir exEnv.home) exFS.dirs⟩
      "/home/u/.trash/f_T.txt" = false ∧
    lookupFile exFS.files "/home/u/.trash/f_T.txt" = none := by
  have h := C2_collision_free_naming.1 exEnv exFS "/a/f.txt" "/home/u/.trash/f_T.txt"
    exTrashFS (by rfl)
  exact ⟨by rfl, h.1, h.2.1⟩

/-- Claim C3 counterexample: the copy step fails (`copyOk = false`), yet
`backup_file` returns a path — the pre-occupied first candidate
`/a/f_T.txt.bak`, whose contents `[9]` are unrelated to the source — so
the claim "reports failure (returns a failure result, not a backup path)"
is false on the code. -/
theorem C3_counterexample :
    exEnvCopyFail.copyOk = false ∧
    backup_file exEnvCopyFail exFSColl "/a/f.txt" = (some "/a/f_T.txt.bak", exFSColl) ∧
    lookupFile exFSColl.files "/a/f_T.txt.bak" = some [9] :=
  ⟨rfl, rfl, rfl⟩

/-- Claim C3 (amended): if the copy step of backup fails, the filesystem —
in particular the source file — is neither deleted nor modified, and
`backup_file` reports failure (`none`) unless something already exists at
the first candidate name, in which case that pre-existing path is
returned even though no backup was created. -/
theorem C3_backup_copy_failure_amended :
    ∀ (env : Env) (fs : FS) (path : String) (r : Option String) (fs' : FS),
      env.copyOk = false → backup_file env fs path = (r, fs') →
        fs' = fs ∧
        (r = none ∨
          (r = some (backupPlain env path) ∧ pathExists fs (backupPlain env path) = true)) :=
  fun _ _ _ _ _ hc h => backup_file_copy_fail hc h

/-- Witness for the amended C3 at the pre-occupied-candidate input. -/
theorem C3_witness :
    exFSColl = exFSColl ∧
    ((some "/a/f_T.txt.bak" : Option String) = none ∨
      ((some "/a/f_T.txt.bak" : Option String) =
          some (backupPlain exEnvCopyFail "/a/f.txt") ∧
        pathExists exFSColl (backupPlain exEnvCopyFail "/a/f.txt") = true)) :=
  C3_backup_copy_failure_amended exEnvCopyFail exFSColl "/a/f.txt"
    (some "/a/f_T.txt.bak") exFSColl (by rfl) (by rfl)

/-- Claim C5: streaming a file through the incremental SHA-256
accumulator in `CHUNK_SIZE` chunks produces, for every byte sequence, the
same digest as the reference one-pass SHA-256; the empty input digests to
the standard SHA-256 empty-string value; and the chunk size is at least
4 KB. -/
theorem C5_hash_streaming_correct :
    (∀ data : Bytes, calculate_file_hash data = SHA256.sha256hex data) ∧
    SHA256.sha256hex [] =
      "e3b0c44298fc1c149afbf4c8996fb92427ae41e4649b934ca495991b7852b855" ∧
    4096 ≤ CHUNK_SIZE := by
  refine ⟨?_, by rfl, by rw [CHUNK_SIZE]; omega⟩
  intro data
  rw [calculate_file_hash, SHA256.foldl_update_ctxOf,
    join_chunksOf (by decide) data, SHA256.Ctx.finalHex, SHA256.final_ctxOf]
  rfl

/-- Claim C9: `move_to_trash` creates the trash root `~/.trash`
(idempotently) before the source-existence check, so a call that fails
because the source file does not exist still leaves the trash directory
in existence — and that is the only state change such a call makes. -/
theorem C9_trash_dir_creation :
    ∀ (env : Env) (fs : FS) (path : String), file_exists fs path = false →
      move_to_trash env fs path =
        (none, ⟨fs.files, insertDir (trashDir env.home) fs.dirs⟩) ∧
      memStr (move_to_trash env fs path).2.dirs (trashDir env.home) = true ∧
      (move_to_trash env fs path).2.files = fs.files ∧
      (memStr fs.dirs (trashDir env.home) = true → (move_to_trash env fs path).2 = fs) := by
  intro env fs path hne
  have hlk : lookupFile fs.files path = none := by
    rw [file_exists] at hne
    cases hl : lookupFile fs.files path with
    | none => rfl
    | some c =>
      rw [hl] at hne
      simp at hne
  have hmain : move_to_trash env fs path =
      (none, ⟨fs.files, insertDir (trashDir env.home) fs.dirs⟩) := by
    simp only [move_to_trash, hlk]
  refine ⟨hmain, ?_, ?_, ?_⟩
  · rw [hmain]
    exact memStr_insertDir _ _
  · rw [hmain]
  · intro hmem
    rw [hmain]
    show (⟨fs.files, insertDir (trashDir env.home) fs.dirs⟩ : FS) = fs
    rw [insertDir_mem _ _ hmem]

/-- Witness for C9: on an empty filesystem the failed call still creates
`/home/u/.trash`. -/
theorem C9_witness :
    move_to_trash exEnv ⟨[], []⟩ "/x" = (none, ⟨[], ["/home/u/.trash"]⟩) ∧
    memStr (move_to_trash exEnv ⟨[], []⟩ "/x").2.dirs (trashDir exEnv.home) = true := by
  have h := C9_trash_dir_creation exEnv ⟨[], []⟩ "/x" (by rfl)
  exact ⟨by rfl, h.2.1⟩

/-- Claim C4 counterexample: a run in which the backup step fails (the
copy oracle is off and `backup_file` returns `None`), yet the resulting
action log contains no FAILURE entry at all — the backup failure is never
logged, refuting the claim that every backup failure is logged as a
failure outcome. -/
theorem C4_counterexample :
    interactive_delete exEnvCopyFail "/a/f.txt" ⟨exFS, [], ["no"]⟩ =
      some (⟨exFS, [⟨"/a/f.txt", "CANCELLED", true⟩], []⟩, stepEvents) ∧
    (backup_file exEnvCopyFail exFS "/a/f.txt").1 = none ∧
    ([(⟨"/a/f.txt", "CANCELLED", true⟩ : LogEntry)].all (fun e => e.success)) = true :=
  ⟨rfl, rfl, rfl⟩

/-- Claim C4 (amended): a trash-move failure is logged as a
`MOVED_TO_TRASH`/FAILURE entry; a backup failure is not logged at all —
when `backup_file` returns no path, the run's log gains exactly one entry
(the confirmation outcome), and no backup line. -/
theorem C4_failure_logging_amended :
    (∀ (env : Env) (path : String) (st : WfState) (res : WfState × List Ev)
      (k : Nat) (rest : List String),
      file_exists st.fs path = true →
      confirm_action st.inputs = some (true, k, rest) →
      interactiveCore env path st = some res →
      (move_to_trash env (backup_file env st.fs path).2 path).1 = none →
      ⟨path, "MOVED_TO_TRASH", false⟩ ∈ res.1.log) ∧
    (∀ (env : Env) (path : String) (st : WfState) (res : WfState × List Ev),
      file_exists st.fs path = true →
      interactiveCore env path st = some res →
      (backup_file env st.fs path).1 = none →
      ∃ e : LogEntry, res.1.log = st.log ++ [e] ∧ e.action ≠ "BACKUP_CREATED") := by
  constructor
  · intro env path st res k rest hex hconf hrun hmove
    rw [interactiveCore_true_char hex hconf] at hrun
    injection hrun with hrun
    rw [← hrun]
    show _ ∈ (st.log ++ backupLog env st path) ++
      [⟨path, "MOVED_TO_TRASH", (move_to_trash env (backup_file env st.fs path).2 path).1.isSome⟩]
    rw [hmove]
    simp
  · intro env path st res hex hrun hbk
    have hbl : backupLog env st path = [] := by
      rw [backupLog, hbk]
    cases hc : confirm_action st.inputs with
    | none =>
      rw [interactiveCore_confirm_none hex hc] at hrun
      exact Option.noConfusion hrun
    | some t =>
      obtain ⟨b, k, rest⟩ := t
      cases b with
      | true =>
        rw [interactiveCore_true_char hex hc] at hrun
        injection hrun with hrun
        refine ⟨⟨path, "MOVED_TO_TRASH",
          (move_to_trash env (backup_file env st.fs path).2 path).1.isSome⟩, ?_,
          by show ("MOVED_TO_TRASH" : String) ≠ "BACKUP_CREATED"; decide⟩
        rw [← hrun]
        show (st.log ++ backupLog env st path) ++ _ = _
        rw [hbl, List.append_nil]
      | false =>
        rw [interactiveCore_false_char hex hc] at hrun
        injection hrun with hrun
        refine ⟨⟨path, "CANCELLED", true⟩, ?_,
          by show ("CANCELLED" : String) ≠ "BACKUP_CREATED"; decide⟩
        rw [← hrun]
        show (st.log ++ backupLog env st path) ++ _ = _
        rw [hbl, List.append_nil]

/-- Witness for the amended C4: a failed trash-move is logged as FAILURE
(first run), and a failed backup adds only the cancellation entry
(second run). -/
theorem C4_witness :
    (⟨"/a/f.txt", "MOVED_TO_TRASH", false⟩ : LogEntry) ∈
      [(⟨"/a/f.txt", "BACKUP_CREATED", true⟩ : LogEntry),
       ⟨"/a/f.txt", "MOVED_TO_TRASH", false⟩] ∧
    (∃ e : LogEntry, [(⟨"/a/f.txt", "CANCELLED", true⟩ : LogEntry)] = [] ++ [e] ∧
      e.action ≠ "BACKUP_CREATED") := by
  constructor
  · exact C4_failure_logging_amended.1 (⟨"/home/u", "T", false, true⟩ : Env) "/a/f.txt"
      ⟨exFS, [], ["yes"]⟩
      (⟨⟨[("/a/f_T.txt.bak", [1, 2, 3]), ("/a/f.txt", [1, 2, 3])], ["/home/u/.trash"]⟩,
        [⟨"/a/f.txt", "BACKUP_CREATED", true⟩, ⟨"/a/f.txt", "MOVED_TO_TRASH", false⟩], []⟩,
        stepEvents ++ [Ev.trashEv])
      0 [] (by rfl) (by rfl) (by rfl) (by rfl)
  · exact C4_failure_logging_amended.2 exEnvCopyFail "/a/f.txt" ⟨exFS, [], ["no"]⟩
      (⟨exFS, [⟨"/a/f.txt", "CANCELLED", true⟩], []⟩, stepEvents)
      (by rfl) (by rfl) (by rfl)

/-- Claim C7: the confirmation step re-prompts on every answer that is
neither affirmative nor negative until a valid answer arrives (a
successful decision splits the queue into `k` invalid answers and one
valid one); only an affirmative answer leads to the trash step; a
negative answer yields the CANCELLED terminal state, logged with SUCCESS
status, with no trash-move attempted; and the inputs "maybe" then "y"
produce exactly one re-prompt followed by an affirmative outcome. -/
theorem C7_confirmation_loop :
    (∀ rest : List String, confirm_action ("maybe" :: "y" :: rest) = some (true, 1, rest)) ∧
    (∀ (inputs : List String) (b : Bool) (k : Nat) (rem : List String),
      confirm_action inputs = some (b, k, rem) →
        ∃ pre v, inputs = pre ++ v :: rem ∧ pre.length = k ∧
          (∀ x ∈ pre, isValidResp x = false) ∧
          (b = true → isYesResp v = true) ∧ (b = false → isNoResp v = true)) ∧
    (∀ (env : Env) (path : String) (st : WfState) (res : WfState × List Ev)
      (k : Nat) (rest : List String),
      file_exists st.fs path = true →
      confirm_action st.inputs = some (false, k, rest) →
      interactiveCore env path st = some res →
        res.1.fs = (backup_file env st.fs path).2 ∧
        res.1.log = (st.log ++ backupLog env st path) ++ [⟨path, "CANCELLED", true⟩] ∧
        Ev.trashEv ∉ res.2) ∧
    (∀ (env : Env) (path : String) (st : WfState) (res : WfState × List Ev),
      interactiveCore env path st = some res → Ev.trashEv ∈ res.2 →
        ∃ k rest, confirm_action st.inputs = some (true, k, rest)) := by
  refine ⟨?_, confirm_action_char, ?_, ?_⟩
  · intro rest
    rfl
  · intro env path st res k rest hex hconf hrun
    rw [interactiveCore_false_char hex hconf] at hrun
    injection hrun with hrun
    rw [← hrun]
    exact ⟨rfl, rfl, by show Ev.trashEv ∉ stepEvents; decide⟩
  · intro env path st res hrun hmem
    by_cases hex : file_exists st.fs path = true
    · cases hc : confirm_action st.inputs with
      | none =>
        rw [interactiveCore_confirm_none hex hc] at hrun
        exact Option.noConfusion hrun
      | some t =>
        obtain ⟨b, k, rest⟩ := t
        cases b with
        | true => exact ⟨k, rest, rfl⟩
        | false =>
          rw [interactiveCore_false_char hex hc] at hrun
          injection hrun with hrun
          rw [← hrun] at hmem
          have hno : Ev.trashEv ∉ stepEvents := by decide
          exact absurd hmem hno
    · rw [interactiveCore_notfound_char (Bool.not_eq_true _ ▸ Bool.of_not_eq_true hex)] at hrun
      injection hrun with hrun
      rw [← hrun] at hmem
      have hno : Ev.trashEv ∉ ([] : List Ev) := by decide
      exact absurd hmem hno

/-- Witness for C7: "maybe" then "y" gives one re-prompt and an
affirmative; a "no" run ends CANCELLED with no trash event. -/
theorem C7_witness :
    confirm_action ["maybe", "y"] = some (true, 1, []) ∧
    ((⟨⟨[("/a/f_T.txt.bak", [1, 2, 3]), ("/a/f.txt", [1, 2, 3])], []⟩,
        [⟨"/a/f.txt", "BACKUP_CREATED", true⟩, ⟨"/a/f.txt", "CANCELLED", true⟩], []⟩,
      stepEvents) : WfState × List Ev).1.fs =
        (backup_file exEnv exFS "/a/f.txt").2 ∧
    Ev.trashEv ∉ ((⟨⟨[("/a/f_T.txt.bak", [1, 2, 3]), ("/a/f.txt", [1, 2, 3])], []⟩,
        [⟨"/a/f.txt", "BACKUP_CREATED", true⟩, ⟨"/a/f.txt", "CANCELLED", true⟩], []⟩,
      stepEvents) : WfState × List Ev).2 := by
  have h := C7_confirmation_loop.2.2.1 exEnv "/a/f.txt" ⟨exFS, [], ["no"]⟩
    (⟨⟨[("/a/f_T.txt.bak", [1, 2, 3]), ("/a/f.txt", [1, 2, 3])], []⟩,
        [⟨"/a/f.txt", "BACKUP_CREATED", true⟩, ⟨"/a/f.txt", "CANCELLED", true⟩], []⟩,
      stepEvents) 0 [] (by rfl) (by rfl) (by rfl)
  exact ⟨C7_confirmation_loop.1 [], h.1, h.2.2⟩

/-- Claim C8: for every input path whose normalized form does not name an
existing regular file, the workflow appends a NOT_FOUND/FAILURE log entry
and terminates immediately: no inspection, preview, hash, entropy, size,
effort, backup, confirmation, or trash event occurs, the filesystem is
untouched, and the input queue is not consumed. -/
theorem C8_not_found_short_circuit :
    ∀ (env : Env) (inp : String) (st : WfState),
      file_exists st.fs (pyNormalize env.home inp) = false →
      interactive_delete env inp st =
        some (⟨st.fs, st.log ++ [⟨pyNormalize env.home inp, "NOT_FOUND", false⟩],
          st.inputs⟩, []) := by
  intro env inp st h
  rw [interactive_delete]
  exact interactiveCore_notfound_char h

/-- Witness for C8 at a missing file. -/
theorem C8_witness :
    interactive_delete exEnv "/nope.txt" ⟨exFS, [], ["y"]⟩ =
      some (⟨exFS, [⟨"/nope.txt", "NOT_FOUND", false⟩], ["y"]⟩, []) := by
  have h := C8_not_found_short_circuit exEnv "/nope.txt" ⟨exFS, [], ["y"]⟩ (by rfl)
  exact h

/-- Claim C10: the workflow operates on the normalized form of the
user-supplied path: surrounding whitespace is stripped, then surrounding
single/double quotes, then a leading `~` is expanded to the home
directory — all before any existence check or filesystem operation
(`interactive_delete` is exactly the core workflow applied to the
normalized path). -/
theorem C10_path_normalization :
    (∀ (env : Env) (inp : String) (st : WfState),
      interactive_delete env inp st = interactiveCore env (pyNormalize env.home inp) st) ∧
    (∀ home s, pyNormalize home s = expanduser home (stripBy isQuoteCh (stripBy isPyWS s))) ∧
    (∀ s, ∃ pre suf, s.data = pre ++ (stripBy isPyWS s).data ++ suf ∧
      (∀ c ∈ pre, isPyWS c = true) ∧ (∀ c ∈ suf, isPyWS c = true) ∧
      (stripBy isPyWS s).data.dropWhile isPyWS = (stripBy isPyWS s).data ∧
      (stripBy isPyWS s).data.reverse.dropWhile isPyWS = (stripBy isPyWS s).data.reverse) ∧
    (∀ s, ∃ pre suf, s.data = pre ++ (stripBy isQuoteCh s).data ++ suf ∧
      (∀ c ∈ pre, isQuoteCh c = true) ∧ (∀ c ∈ suf, isQuoteCh c = true) ∧
      (stripBy isQuoteCh s).data.dropWhile isQuoteCh = (stripBy isQuoteCh s).data ∧
      (stripBy isQuoteCh s).data.reverse.dropWhile isQuoteCh =
        (stripBy isQuoteCh s).data.reverse) ∧
    (∀ home : String, expanduser home "~" = home) ∧
    (∀ (home p : String), strStartsWith p "~/" = true →
      expanduser home p = home ++ strDrop p 1) ∧
    (∀ (home p : String), p ≠ "~" → strStartsWith p "~/" = false →
      expanduser home p = p) := by
  refine ⟨fun _ _ _ => rfl, fun _ _ => rfl, ?_, ?_, ?_, ?_, ?_⟩
  · intro s
    obtain ⟨⟨pre, suf, h1, h2, h3⟩, h4, h5⟩ := stripBy_spec isPyWS s
    exact ⟨pre, suf, h1, h2, h3, h4, h5⟩
  · intro s
    obtain ⟨⟨pre, suf, h1, h2, h3⟩, h4, h5⟩ := stripBy_spec isQuoteCh s
    exact ⟨pre, suf, h1, h2, h3, h4, h5⟩
  · intro home
    rfl
  · intro home p hp
    rw [expanduser, if_neg (strStartsWith_two_ne_short hp), if_pos hp]
  · intro home p hne hp
    rw [expanduser, if_neg hne, if_neg (by rw [hp]; exact Bool.false_ne_true)]

/-- Claim C6: the Shannon entropy computed by `calculate_entropy` lies in
[0, 8] bits per byte; it is computed over the nonzero histogram bins only
(for nonempty data it equals the sum over all 256 bins in which
zero-count bins contribute 0); a file of a single repeated byte value of
any nonzero length has entropy 0; and the empty file yields exactly 0 via
the dedicated empty-file branch. -/
theorem C6_entropy_properties :
    (∀ data : List Byte, 0 ≤ calculate_entropy data ∧ calculate_entropy data ≤ 8) ∧
    (∀ (b : Byte) (n : Nat), n ≠ 0 → calculate_entropy (List.replicate n b) = 0) ∧
    calculate_entropy [] = 0 ∧
    (∀ data : List Byte, data ≠ [] →
      calculate_entropy data =
        (∑ b ∈ Finset.univ, if 0 < data.count b
          then Real.negMulLog ((data.count b : ℝ) / (data.length : ℝ)) else 0) /
          Real.log 2) := by
  have hlog2 : (0 : ℝ) < Real.log 2 := Real.log_pos one_lt_two
  refine ⟨?_, ?_, ?_, ?_⟩
  · intro data
    by_cases hd : data = []
    · subst hd
      rw [calculate_entropy]
      norm_num
    · rw [calculate_entropy, if_neg hd]
      have hnpos : 0 < data.length := List.length_pos.mpr hd
      constructor
      · apply div_nonneg _ (le_of_lt hlog2)
        apply Finset.sum_nonneg
        intro b _
        apply Real.negMulLog_nonneg
        · positivity
        · apply div_le_one_of_le₀
          · exact_mod_cast List.count_le_length b data
          · positivity
      · set S := data.toFinset with hS
        set n := data.length with hn
        have hSne : S.Nonempty := by
          obtain ⟨x, hx⟩ := List.exists_mem_of_ne_nil data hd
          exact ⟨x, List.mem_toFinset.mpr hx⟩
        set k := S.card with hk
        have hkpos : 0 < k := Finset.card_pos.mpr hSne
        have hk256 : k ≤ 256 := by
          have h := Finset.card_le_univ S
          rwa [Fintype.card_fin] at h
        have hsumN : ∑ b ∈ S, data.count b = n := by
          rw [hS, hn]
          simp
        have hsum1 : ∑ b ∈ S, ((data.count b : ℝ) / (n : ℝ)) = 1 := by
          rw [← Finset.sum_div, ← Nat.cast_sum, hsumN]
          exact div_self (by positivity)
        have h0 : ∀ i ∈ S, (0 : ℝ) ≤ ((k : ℝ))⁻¹ := fun i _ => by positivity
        have h1 : ∑ _i ∈ S, ((k : ℝ))⁻¹ = 1 := by
          rw [Finset.sum_const, nsmul_eq_mul, ← hk]
          have hkne : ((k : ℝ)) ≠ 0 := by positivity
          field_simp
        have hmem : ∀ i ∈ S, ((data.count i : ℝ) / (n : ℝ)) ∈ Set.Ici (0 : ℝ) :=
          fun i _ => Set.mem_Ici.mpr (by positivity)
        have hjensen := Real.concaveOn_negMulLog.le_map_sum h0 h1 hmem
        have hL : ∑ i ∈ S, ((k : ℝ))⁻¹ • Real.negMulLog ((data.count i : ℝ) / (n : ℝ)) =
            ((k : ℝ))⁻¹ * ∑ i ∈ S, Real.negMulLog ((data.count i : ℝ) / (n : ℝ)) := by
          simp only [smul_eq_mul]
          rw [← Finset.mul_sum]
        have hR : ∑ i ∈ S, ((k : ℝ))⁻¹ • ((data.count i : ℝ) / (n : ℝ)) = ((k : ℝ))⁻¹ := by
          simp only [smul_eq_mul, ← Finset.mul_sum, hsum1, mul_one]
        rw [hL, hR] at hjensen
        have hneg : Real.negMulLog (((k : ℝ))⁻¹) = ((k : ℝ))⁻¹ * Real.log k := by
          simp only [Real.negMulLog, Real.log_inv]
          ring
        rw [hneg] at hjensen
        have hA : ∑ i ∈ S, Real.negMulLog ((data.count i : ℝ) / (n : ℝ)) ≤ Real.log k :=
          le_of_mul_le_mul_left hjensen (by positivity)
        have hlogk : Real.log k ≤ Real.log 256 :=
          Real.log_le_log (by positivity) (by exact_mod_cast hk256)
        have h256 : Real.log 256 = 8 * Real.log 2 := by
          rw [show (256 : ℝ) = 2 ^ (8 : ℕ) by norm_num, Real.log_pow]
          norm_num
        rw [div_le_iff₀ hlog2]
        calc ∑ i ∈ S, Real.negMulLog ((data.count i : ℝ) / (n : ℝ))
            ≤ Real.log k := hA
          _ ≤ Real.log 256 := hlogk
          _ = 8 * Real.log 2 := h256
  · intro b n hn
    have hne : List.replicate n b ≠ [] := by
      intro hcon
      have hlen := congrArg List.length hcon
      simp at hlen
      exact hn hlen
    rw [calculate_entropy, if_neg hne]
    rw [List.toFinset_replicate_of_ne_zero hn, Finset.sum_singleton,
      List.count_replicate_self, List.length_replicate]
    rw [div_self (by exact_mod_cast hn : ((n : ℝ)) ≠ 0)]
    rw [Real.negMulLog_one, zero_div]
  · rw [calculate_entropy, if_pos rfl]
  · intro data hd
    rw [calculate_entropy, if_neg hd]
    have hfil : data.toFinset = Finset.univ.filter (fun b => 0 < data.count b) := by
      ext b
      simp [List.count_pos_iff]
    rw [hfil, Finset.sum_filter]

/-- Witness for C6 at concrete byte lists. -/
theorem C6_witness :
    (0 ≤ calculate_entropy [(0 : Byte)] ∧ calculate_entropy [(0 : Byte)] ≤ 8) ∧
    calculate_entropy (List.replicate 3 (0 : Byte)) = 0 ∧
    calculate_entropy [] = 0 :=
  ⟨C6_entropy_properties.1 [(0 : Byte)],
   C6_entropy_properties.2.1 (0 : Byte) 3 (by decide),
   C6_entropy_properties.2.2.1⟩

/-- Witness for C10 at a concrete quoted, padded, tilde path. -/
theorem C10_witness :
    pyNormalize "/home/u" "  '~/docs/x.txt'  " = "/home/u/docs/x.txt" ∧
    expanduser "/home/u" "~/docs/x.txt" = "/home/u" ++ strDrop "~/docs/x.txt" 1 ∧
    expanduser "/home/u" "/plain" = "/plain" := by
  refine ⟨by rfl, ?_, ?_⟩
  · exact C10_path_normalization.2.2.2.2.2.1 "/home/u" "~/docs/x.txt" (by rfl)
  · exact C10_path_normalization.2.2.2.2.2.2 "/home/u" "/plain" (by decide) (by rfl)
